import Mathlib

/-!
Verification of the discrete decoding module (`nimare/decode/discrete.py`).

The embedding works over exact rationals.  Where the Python code can produce
IEEE special values (division by zero inside `brainmap_decode`), values are
modelled by `NVal`: an exact rational together with the special values
`inf`, `-inf` and `nan`, with the IEEE/numpy propagation rules for the
arithmetic operations that occur in the source.
-/

/-- A numpy floating-point value, idealised: an exact rational or one of the
special values `+inf`, `-inf`, `nan`. -/
inductive NVal where
  | fin (q : ℚ)
  | pinf
  | ninf
  | nan
deriving DecidableEq

/-- IEEE addition on `NVal`. -/
def NVal.add : NVal → NVal → NVal
  | nan, _ => nan
  | _, nan => nan
  | fin a, fin b => fin (a + b)
  | fin _, pinf => pinf
  | pinf, fin _ => pinf
  | fin _, ninf => ninf
  | ninf, fin _ => ninf
  | pinf, pinf => pinf
  | ninf, ninf => ninf
  | pinf, ninf => nan
  | ninf, pinf => nan

/-- IEEE negation on `NVal`. -/
def NVal.neg : NVal → NVal
  | fin a => fin (-a)
  | pinf => ninf
  | ninf => pinf
  | nan => nan

/-- IEEE subtraction on `NVal`. -/
def NVal.sub (x y : NVal) : NVal := x.add y.neg

/-- IEEE multiplication on `NVal` (`0 * inf = nan`). -/
def NVal.mul : NVal → NVal → NVal
  | nan, _ => nan
  | _, nan => nan
  | fin a, fin b => fin (a * b)
  | fin a, pinf => if 0 < a then pinf else if a < 0 then ninf else nan
  | fin a, ninf => if 0 < a then ninf else if a < 0 then pinf else nan
  | pinf, fin b => if 0 < b then pinf else if b < 0 then ninf else nan
  | ninf, fin b => if 0 < b then ninf else if b < 0 then pinf else nan
  | pinf, pinf => pinf
  | pinf, ninf => ninf
  | ninf, pinf => ninf
  | ninf, ninf => pinf

/-- IEEE division on `NVal` (`x / 0` is `±inf` for `x ≠ 0`, `0 / 0 = nan`,
finite-over-infinite is `0`, infinite-over-infinite is `nan`). -/
def NVal.div : NVal → NVal → NVal
  | nan, _ => nan
  | _, nan => nan
  | fin a, fin b =>
      if b = 0 then (if 0 < a then pinf else if a < 0 then ninf else nan)
      else fin (a / b)
  | fin _, pinf => fin 0
  | fin _, ninf => fin 0
  | pinf, fin b => if 0 ≤ b then pinf else ninf
  | ninf, fin b => if 0 ≤ b then ninf else pinf
  | pinf, pinf => nan
  | pinf, ninf => nan
  | ninf, pinf => nan
  | ninf, ninf => nan

/-- `numpy.sign` on `NVal`. -/
def NVal.sign : NVal → NVal
  | fin a => fin (if 0 < a then 1 else if a < 0 then -1 else 0)
  | pinf => fin 1
  | ninf => fin (-1)
  | nan => nan

/-- Natural powers on `NVal` (`x ^ 0 = 1`, matching `numpy`'s `nan ** 0 = 1`). -/
def NVal.npow (x : NVal) : ℕ → NVal
  | 0 => fin 1
  | n + 1 => x.mul (x.npow n)

/-- Finiteness test: true exactly on `fin` values. -/
def NVal.isFinite : NVal → Bool
  | fin _ => true
  | _ => false

/-- `numpy.sum` over a list of `NVal` (left fold starting at `0`). -/
def nsum (l : List NVal) : NVal := l.foldl NVal.add (NVal.fin 0)

/-- Embedding of an exact natural count into `NVal`. -/
def nv (n : ℕ) : NVal := NVal.fin (n : ℚ)

@[simp] theorem NVal.fin_add (a b : ℚ) : (fin a).add (fin b) = fin (a + b) := rfl

@[simp] theorem NVal.fin_mul (a b : ℚ) : (fin a).mul (fin b) = fin (a * b) := rfl

@[simp] theorem NVal.fin_sub (a b : ℚ) : (fin a).sub (fin b) = fin (a - b) := by
  simp [NVal.sub, NVal.neg, NVal.add, sub_eq_add_neg]

theorem NVal.fin_div (a b : ℚ) (h : b ≠ 0) : (fin a).div (fin b) = fin (a / b) := by
  simp [NVal.div, h]

theorem NVal.fin_npow (a : ℚ) (n : ℕ) : (fin a).npow n = fin (a ^ n) := by
  induction n with
  | zero => simp [NVal.npow]
  | succ n ih => simp [NVal.npow, ih, pow_succ, mul_comm]

theorem nsum_fin_aux (l : List ℚ) (a : ℚ) :
    (l.map NVal.fin).foldl NVal.add (NVal.fin a) = NVal.fin (a + l.sum) := by
  induction l generalizing a with
  | nil => simp
  | cons x xs ih => simp [ih, add_assoc]

theorem nsum_map_fin (l : List ℚ) : nsum (l.map NVal.fin) = NVal.fin l.sum := by
  simpa using nsum_fin_aux l 0

/-! ## Binomial distribution (`scipy.stats.binom.cdf`) -/

/-- Exact binomial CDF: `P(X ≤ k)` for `X ~ Binomial(n, p)`, over `ℚ`. -/
def binomCdfQ (k n : ℕ) (p : ℚ) : ℚ :=
  ((List.range (k + 1)).map (fun i => (n.choose i : ℚ) * p ^ i * (1 - p) ^ (n - i))).sum

/-- Binomial CDF evaluated in `NVal` arithmetic, as `scipy.stats.binom.cdf`
is applied to the floating-point array in `brainmap_decode`. -/
def binomCdfN (k n : ℕ) (p : NVal) : NVal :=
  nsum ((List.range (k + 1)).map
    (fun i => (nv (n.choose i)).mul ((p.npow i).mul (((NVal.fin 1).sub p).npow (n - i)))))

theorem binomCdfN_fin (k n : ℕ) (p : ℚ) :
    binomCdfN k n (NVal.fin p) = NVal.fin (binomCdfQ k n p) := by
  have hmap : (List.range (k + 1)).map
      (fun i => (nv (n.choose i)).mul (((NVal.fin p).npow i).mul
        (((NVal.fin 1).sub (NVal.fin p)).npow (n - i)))) =
      ((List.range (k + 1)).map
        (fun i => (n.choose i : ℚ) * (p ^ i * (1 - p) ^ (n - i)))).map NVal.fin := by
    rw [List.map_map]
    refine List.map_congr_left ?_
    intro i _
    simp [nv, NVal.fin_npow, NVal.fin_sub, NVal.fin_mul, Function.comp]
  rw [binomCdfN, hmap, nsum_map_fin, binomCdfQ]
  congr 1
  refine congrArg List.sum (List.map_congr_left ?_)
  intro i _
  ring

/-! ## Shared data model of `brainmap_decode` / `neurosynth_decode`

A study's annotation row carries its `id` and one continuous weight per
feature column (the feature columns of the annotations table, with the
reserved id columns already removed).  The coordinates table is reduced to
its `id` column: one study id per focus. -/

/-- One row of the annotations table: study id plus per-feature weights. -/
structure AnnotationRow where
  id : ℕ
  weights : List ℚ
deriving DecidableEq

/-- The inputs shared by `brainmap_decode` and `neurosynth_decode`.
`nFeatures` is the number of feature columns of the annotations table. -/
structure DiscreteInput where
  coordinates : List ℕ
  annotations : List AnnotationRow
  ids : List ℕ
  ids2 : Option (List ℕ)
  nFeatures : ℕ
  frequency_threshold : ℚ
deriving DecidableEq

/-- `sorted(list(set(univ) - set(sel)))`. -/
def sortedSetDiff (univ sel : List ℕ) : List ℕ :=
  List.insertionSort (· ≤ ·) ((univ.filter (fun c => !(sel.contains c))).dedup)

/-- The unselected study set: `ids2` verbatim when supplied, otherwise the
sorted set difference of the coordinate-table id universe minus `ids`. -/
def unselectedIds (inp : DiscreteInput) : List ℕ :=
  match inp.ids2 with
  | some l => l
  | none => sortedSetDiff inp.coordinates inp.ids

/-- Binarization: `annotations[features].ge(frequency_threshold)` for one row
and feature index (inclusive at the boundary). -/
def binRow (τ : ℚ) (r : AnnotationRow) (j : ℕ) : Bool :=
  decide (τ ≤ r.weights.getD j 0)

/-- Whether study `i`'s annotation row marks feature `j` present
(`features_df.loc[i, j]` after binarization). -/
def hasFeature (inp : DiscreteInput) (i j : ℕ) : Bool :=
  match inp.annotations.find? (fun r => r.id == i) with
  | some r => binRow inp.frequency_threshold r j
  | none => false

def n_selected (inp : DiscreteInput) : ℕ := inp.ids.length

def n_unselected (inp : DiscreteInput) : ℕ := (unselectedIds inp).length

def n_selected_term (inp : DiscreteInput) (j : ℕ) : ℕ :=
  (inp.ids.filter (fun i => hasFeature inp i j)).length

def n_unselected_term (inp : DiscreteInput) (j : ℕ) : ℕ :=
  ((unselectedIds inp).filter (fun i => hasFeature inp i j)).length

def n_selected_noterm (inp : DiscreteInput) (j : ℕ) : ℕ :=
  n_selected inp - n_selected_term inp j

def n_unselected_noterm (inp : DiscreteInput) (j : ℕ) : ℕ :=
  n_unselected inp - n_unselected_term inp j

def n_term (inp : DiscreteInput) (j : ℕ) : ℕ :=
  n_selected_term inp j + n_unselected_term inp j

def n_noterm (inp : DiscreteInput) (j : ℕ) : ℕ :=
  n_selected_noterm inp j + n_unselected_noterm inp j

/-! ## `brainmap_decode` (BrainMap-style decoding)

The per-feature floating-point quantities of `brainmap_decode` are embedded
over `NVal`.  The external statistical primitives (`two_way`, `chdtrc`,
`p_to_z`, `multipletests`) live outside this repository and are taken as
parameters, bundled in `StatPrimitives`. -/

/-- `np.sum(np.sum(features_df))`: total number of `True` entries of the
binarized annotations matrix, across all studies and all features. -/
def n_exps_across_terms (inp : DiscreteInput) : ℕ :=
  (inp.annotations.map
    (fun r => ((List.range inp.nFeatures).filter
      (fun j => binRow inp.frequency_threshold r j)).length)).sum

/-- `coordinates.shape[0]`: number of foci in the database. -/
def n_foci_in_database (inp : DiscreteInput) : ℕ := inp.coordinates.length

/-- Whether focus-study `c` is one of the annotation ids whose binarized row
marks feature `j` present (`coordinates['id'].isin(term_ids)`). -/
def studyHasTerm (inp : DiscreteInput) (c j : ℕ) : Bool :=
  inp.annotations.any (fun r => r.id == c && binRow inp.frequency_threshold r j)

/-- Whether focus-study `c` is one of the annotation ids whose binarized row
marks feature `j` absent (`coordinates['id'].isin(noterm_ids)`). -/
def studyLacksTerm (inp : DiscreteInput) (c j : ℕ) : Bool :=
  inp.annotations.any (fun r => r.id == c && !binRow inp.frequency_threshold r j)

/-- Number of foci belonging to studies showing feature `j`. -/
def n_term_foci (inp : DiscreteInput) (j : ℕ) : ℕ :=
  (inp.coordinates.filter (fun c => studyHasTerm inp c j)).length

/-- Number of foci belonging to studies not showing feature `j`. -/
def n_noterm_foci (inp : DiscreteInput) (j : ℕ) : ℕ :=
  (inp.coordinates.filter (fun c => studyLacksTerm inp c j)).length

/-- BrainMap `p_term = n_term / n_exps_across_terms`. -/
def bm_p_term (inp : DiscreteInput) (j : ℕ) : NVal :=
  (nv (n_term inp j)).div (nv (n_exps_across_terms inp))

/-- BrainMap `p_selected = n_selected / n_foci_in_database`. -/
def bm_p_selected (inp : DiscreteInput) : NVal :=
  (nv (n_selected inp)).div (nv (n_foci_in_database inp))

/-- `p_selected_g_term = n_selected_term / n_term_foci` (probForward). -/
def bm_p_selected_g_term (inp : DiscreteInput) (j : ℕ) : NVal :=
  (nv (n_selected_term inp j)).div (nv (n_term_foci inp j))

/-- `l_selected_g_term = p_selected_g_term / p_selected` (likelihoodForward). -/
def bm_l_selected_g_term (inp : DiscreteInput) (j : ℕ) : NVal :=
  (bm_p_selected_g_term inp j).div (bm_p_selected inp)

/-- `p_selected_g_noterm = n_selected_noterm / n_noterm_foci`. -/
def bm_p_selected_g_noterm (inp : DiscreteInput) (j : ℕ) : NVal :=
  (nv (n_selected_noterm inp j)).div (nv (n_noterm_foci inp j))

/-- Un-normalized reverse effect `p_term_g_selected = p_selected_g_term * p_term / p_selected`. -/
def bm_prob_reverse_raw (inp : DiscreteInput) (j : ℕ) : NVal :=
  ((bm_p_selected_g_term inp j).mul (bm_p_term inp j)).div (bm_p_selected inp)

/-- `np.sum(p_term_g_selected)`: normalization denominator of the reverse effects. -/
def bm_reverse_sum (inp : DiscreteInput) : NVal :=
  nsum ((List.range inp.nFeatures).map (bm_prob_reverse_raw inp))

/-- Normalized reverse effect (the returned `probReverse` column). -/
def bm_prob_reverse (inp : DiscreteInput) (j : ℕ) : NVal :=
  (bm_prob_reverse_raw inp j).div (bm_reverse_sum inp)

/-- Raw forward p-value `p_fi = 1 - binom.cdf(k=n_selected_term, n=n_term_foci, p=p_selected)`,
before rare-feature suppression and before correction. -/
def bm_p_fi_raw (inp : DiscreteInput) (j : ℕ) : NVal :=
  (NVal.fin 1).sub (binomCdfN (n_selected_term inp j) (n_term_foci inp j) (bm_p_selected inp))

/-- External statistical primitives consumed by the decoding pipelines:
`two_way` (2×2 chi-square statistic from the four cell counts), `chdtrc`
(upper-tail chi-square survival function, df = 1), `p_to_z` (two-sided
p-to-z transform) and `corr` (`multipletests` for the configured method). -/
structure StatPrimitives where
  two_way : ℕ → ℕ → ℕ → ℕ → NVal
  chdtrc : NVal → NVal
  p_to_z : NVal → NVal
  corr : List NVal → List NVal

/-- Raw reverse p-value `p_ri = chdtrc(1, two_way(cells))`. -/
def bm_p_ri_raw (prims : StatPrimitives) (inp : DiscreteInput) (j : ℕ) : NVal :=
  prims.chdtrc (prims.two_way (n_selected_term inp j) (n_selected_noterm inp j)
    (n_unselected_term inp j) (n_unselected_noterm inp j))

/-- Pre-correction forward p-value: the raw value with rare features
(`n_selected_term < 5`) suppressed to `1` (`p_fi[n_selected_term < 5] = 1.`). -/
def bm_p_fi (inp : DiscreteInput) (j : ℕ) : NVal :=
  if n_selected_term inp j < 5 then NVal.fin 1 else bm_p_fi_raw inp j

/-- Pre-correction reverse p-value with rare-feature suppression. -/
def bm_p_ri (prims : StatPrimitives) (inp : DiscreteInput) (j : ℕ) : NVal :=
  if n_selected_term inp j < 5 then NVal.fin 1 else bm_p_ri_raw prims inp j

/-- The forward p-value vector handed to the correction step. -/
def bm_p_fi_vec (inp : DiscreteInput) : List NVal :=
  (List.range inp.nFeatures).map (bm_p_fi inp)

/-- The reverse p-value vector handed to the correction step. -/
def bm_p_ri_vec (prims : StatPrimitives) (inp : DiscreteInput) : List NVal :=
  (List.range inp.nFeatures).map (bm_p_ri prims inp)

/-- Corrected forward p-values; `useCorrection = false` models `correction=None`. -/
def bm_p_corr_fi (prims : StatPrimitives) (inp : DiscreteInput) (useCorrection : Bool) :
    List NVal :=
  if useCorrection then prims.corr (bm_p_fi_vec inp) else bm_p_fi_vec inp

/-- Corrected reverse p-values. -/
def bm_p_corr_ri (prims : StatPrimitives) (inp : DiscreteInput) (useCorrection : Bool) :
    List NVal :=
  if useCorrection then prims.corr (bm_p_ri_vec prims inp) else bm_p_ri_vec prims inp

/-- `np.mean(n_selected_term)` across features. -/
def bm_mean_n_selected_term (inp : DiscreteInput) : NVal :=
  (nv (((List.range inp.nFeatures).map (n_selected_term inp)).sum)).div (nv inp.nFeatures)

/-- Forward sign: `np.sign(n_selected_term - np.mean(n_selected_term))`. -/
def bm_sign_fi (inp : DiscreteInput) (j : ℕ) : NVal :=
  ((nv (n_selected_term inp j)).sub (bm_mean_n_selected_term inp)).sign

/-- Reverse sign: `np.sign(p_selected_g_term - p_selected_g_noterm)`. -/
def bm_sign_ri (inp : DiscreteInput) (j : ℕ) : NVal :=
  ((bm_p_selected_g_term inp j).sub (bm_p_selected_g_noterm inp j)).sign

/-- Signed corrected forward z-value. -/
def bm_z_corr_fi (prims : StatPrimitives) (inp : DiscreteInput) (useCorrection : Bool)
    (j : ℕ) : NVal :=
  (prims.p_to_z ((bm_p_corr_fi prims inp useCorrection).getD j NVal.nan)).mul
    (bm_sign_fi inp j)

/-- Signed corrected reverse z-value. -/
def bm_z_corr_ri (prims : StatPrimitives) (inp : DiscreteInput) (useCorrection : Bool)
    (j : ℕ) : NVal :=
  (prims.p_to_z ((bm_p_corr_ri prims inp useCorrection).getD j NVal.nan)).mul
    (bm_sign_ri inp j)

/-- One row of the output table of `brainmap_decode`. -/
structure BrainMapRow where
  pForward : NVal
  zForward : NVal
  likelihoodForward : NVal
  pReverse : NVal
  zReverse : NVal
  probReverse : NVal
deriving DecidableEq

/-- The output table of `brainmap_decode`: one row per feature, in feature
order. -/
def brainmap_decode (prims : StatPrimitives) (inp : DiscreteInput)
    (useCorrection : Bool) : List BrainMapRow :=
  (List.range inp.nFeatures).map (fun j =>
    { pForward := (bm_p_corr_fi prims inp useCorrection).getD j NVal.nan
      zForward := bm_z_corr_fi prims inp useCorrection j
      likelihoodForward := bm_l_selected_g_term inp j
      pReverse := (bm_p_corr_ri prims inp useCorrection).getD j NVal.nan
      zReverse := bm_z_corr_ri prims inp useCorrection j
      probReverse := bm_prob_reverse inp j })

/-! ## `neurosynth_decode` (Neurosynth-style decoding)

The effect-size computations of `neurosynth_decode` are embedded over `ℚ`;
the claims about them only concern inputs where every denominator is
nonzero.  The Python signature default `prior=0.5` is
`neurosynth_default_prior`; passing `prior=None` is `Option.none`. -/

/-- `p_term = n_term / (n_term + n_noterm)`: empirical term base rate. -/
def ns_p_term (inp : DiscreteInput) (j : ℕ) : ℚ :=
  (n_term inp j : ℚ) / ((n_term inp j : ℚ) + (n_noterm inp j : ℚ))

/-- `p_selected_g_term = n_selected_term / n_term`. -/
def ns_p_selected_g_term (inp : DiscreteInput) (j : ℕ) : ℚ :=
  (n_selected_term inp j : ℚ) / (n_term inp j : ℚ)

/-- `p_selected_g_noterm = n_selected_noterm / n_noterm`. -/
def ns_p_selected_g_noterm (inp : DiscreteInput) (j : ℕ) : ℚ :=
  (n_selected_noterm inp j : ℚ) / (n_noterm inp j : ℚ)

/-- The default of the `prior` parameter in the signature of
`neurosynth_decode` (`prior=0.5`). -/
def neurosynth_default_prior : Option ℚ := some (1 / 2)

/-- The prior actually used per feature: the supplied value, or the empirical
base rate `p_term` when `prior is None`. -/
def ns_prior (prior : Option ℚ) (inp : DiscreteInput) (j : ℕ) : ℚ :=
  prior.getD (ns_p_term inp j)

/-- Forward effect size
`p_selected_g_term_g_prior = prior * p_selected_g_term + (1 - prior) * p_selected_g_noterm`
(the `probForward` column). -/
def ns_prob_forward (prior : Option ℚ) (inp : DiscreteInput) (j : ℕ) : ℚ :=
  ns_prior prior inp j * ns_p_selected_g_term inp j +
    (1 - ns_prior prior inp j) * ns_p_selected_g_noterm inp j

/-- Reverse effect size
`p_term_g_selected_g_prior = p_selected_g_term * prior / p_selected_g_term_g_prior`
(the `probReverse` column). -/
def ns_prob_reverse (prior : Option ℚ) (inp : DiscreteInput) (j : ℕ) : ℚ :=
  ns_p_selected_g_term inp j * ns_prior prior inp j / ns_prob_forward prior inp j

/-! ## `gclda_decode_roi` (GCLDA topic-based decoding) -/

/-- A loaded NIfTI volume: its affine (raveled) and its raveled voxel data. -/
structure ImageQ where
  affine : List ℚ
  dataVals : List ℚ
deriving DecidableEq

/-- A pretrained GCLDA topic model: brain mask, voxel-by-topic probabilities
(one row per in-mask voxel), topic-by-word probabilities (one row per word)
and the vocabulary. -/
structure GCLDAModel where
  mask : ImageQ
  n_topics : ℕ
  p_topic_g_voxel : List (List ℚ)
  p_word_g_topic : List (List ℚ)
  vocabulary : List String
deriving DecidableEq

/-- Errors raised by `gclda_decode_roi` after input loading. -/
inductive DecodeError where
  | spatialAlignment
deriving DecidableEq

/-- Boolean-mask indexing `vals[mask]` (numpy semantics, positionwise). -/
def boolMask {α : Type} : List Bool → List α → List α
  | true :: bs, x :: xs => x :: boolMask bs xs
  | false :: bs, _ :: xs => boolMask bs xs
  | _, _ => []

/-- Row selection keeping the rows of voxels that are both in-mask and
in-ROI, walking the full voxel grid (each in-mask voxel owns one row). -/
def boolMask2 {α : Type} : List Bool → List Bool → List α → List α
  | true :: ms, r :: rs, x :: xs => (if r then [x] else []) ++ boolMask2 ms rs xs
  | false :: ms, _ :: rs, xs => boolMask2 ms rs xs
  | _, _, _ => []

/-- Elementwise vector addition. -/
def vecAdd (a b : List ℚ) : List ℚ := List.zipWith (· + ·) a b

/-- `np.sum(rows, axis=0)` for a list of length-`n` rows. -/
def sumRows (n : ℕ) (rows : List (List ℚ)) : List ℚ :=
  rows.foldl vecAdd (List.replicate n 0)

/-- Dot product of two vectors. -/
def dot (a b : List ℚ) : ℚ := (List.zipWith (· * ·) a b).sum

/-- `.astype(bool)` on raveled voxel data. -/
def toBoolVec (l : List ℚ) : List Bool := l.map (fun q => decide (q ≠ 0))

/-- `gclda_decode_roi`, after the ROI image has been loaded.  `weight_priors`
is the external collaborator from `decode/utils`; the affine check precedes
every numeric step, and a mismatch is a hard error. -/
def gclda_decode_roi (weight_priors : List ℚ → ℚ → List ℚ) (model : GCLDAModel)
    (roi : ImageQ) (topic_priors : Option (List ℚ)) (prior_weight : ℚ) :
    Except DecodeError (List (String × ℚ) × List ℚ) :=
  if roi.affine = model.mask.affine then
    let mask_vec := toBoolVec model.mask.dataVals
    let roi_vec := boolMask mask_vec (toBoolVec roi.dataVals)
    let p_topic_g_roi := boolMask roi_vec model.p_topic_g_voxel
    let topic_weights0 := sumRows model.n_topics p_topic_g_roi
    let topic_weights :=
      match topic_priors with
      | some pr => List.zipWith (· * ·) topic_weights0 (weight_priors pr prior_weight)
      | none => topic_weights0
    let word_weights := model.p_word_g_topic.map (fun row => dot row topic_weights)
    Except.ok (model.vocabulary.zip word_weights, topic_weights)
  else
    Except.error DecodeError.spatialAlignment

/-! ## Helper lemmas about boolean-mask selection -/

@[simp] theorem boolMask_nil_left {α : Type} (xs : List α) : boolMask [] xs = [] := rfl

@[simp] theorem boolMask_nil_right {α : Type} (bs : List Bool) :
    boolMask bs ([] : List α) = [] := by
  cases bs with
  | nil => rfl
  | cons b bs => cases b <;> rfl

@[simp] theorem boolMask_true {α : Type} (bs : List Bool) (x : α) (xs : List α) :
    boolMask (true :: bs) (x :: xs) = x :: boolMask bs xs := rfl

@[simp] theorem boolMask_false {α : Type} (bs : List Bool) (x : α) (xs : List α) :
    boolMask (false :: bs) (x :: xs) = boolMask bs xs := rfl

@[simp] theorem boolMask2_nil_left {α : Type} (rs : List Bool) (xs : List α) :
    boolMask2 [] rs xs = [] := rfl

@[simp] theorem boolMask2_nil_mid {α : Type} (m : Bool) (ms : List Bool) (xs : List α) :
    boolMask2 (m :: ms) [] xs = [] := by
  cases m <;> rfl

@[simp] theorem boolMask2_true_cons {α : Type} (ms rs : List Bool) (r : Bool)
    (x : α) (xs : List α) :
    boolMask2 (true :: ms) (r :: rs) (x :: xs) =
      (if r then [x] else []) ++ boolMask2 ms rs xs := rfl

@[simp] theorem boolMask2_true_nil {α : Type} (ms rs : List Bool) (r : Bool) :
    boolMask2 (true :: ms) (r :: rs) ([] : List α) = [] := rfl

@[simp] theorem boolMask2_false {α : Type} (ms rs : List Bool) (r : Bool) (xs : List α) :
    boolMask2 (false :: ms) (r :: rs) xs = boolMask2 ms rs xs := rfl

/-- The two cascaded boolean-mask selections of `gclda_decode_roi`
(`roi_vec = roi_vec[mask_vec]` followed by `p_topic_g_voxel_[roi_idx, :]`)
select exactly the rows of grid voxels that are in-mask and in-ROI. -/
theorem boolMask_boolMask {α : Type} :
    ∀ (ms rs : List Bool) (xs : List α),
      boolMask (boolMask ms rs) xs = boolMask2 ms rs xs := by
  intro ms
  induction ms with
  | nil => intro rs xs; simp
  | cons m ms ih =>
    intro rs xs
    cases rs with
    | nil => simp
    | cons r rs =>
      cases m with
      | false => simpa using ih rs xs
      | true =>
        cases xs with
        | nil => simp
        | cons x xt =>
          cases r <;> simp [ih rs xt]

/-- `mb` and `rb` share no `true` position (every ROI voxel is outside the
mask). -/
def maskRoiDisjoint (mb rb : List Bool) : Prop :=
  (List.zipWith (fun a b => a && b) mb rb).all (fun b => !b) = true

instance (mb rb : List Bool) : Decidable (maskRoiDisjoint mb rb) := by
  unfold maskRoiDisjoint; infer_instance

theorem boolMask2_of_disjoint {α : Type} :
    ∀ (ms rs : List Bool) (xs : List α), maskRoiDisjoint ms rs →
      boolMask2 ms rs xs = [] := by
  intro ms
  induction ms with
  | nil => intro rs xs _; simp
  | cons m ms ih =>
    intro rs xs h
    cases rs with
    | nil => simp
    | cons r rs =>
      have h' := h
      unfold maskRoiDisjoint at h'
      simp [List.all_cons] at h'
      cases m with
      | false => simp [ih rs xs (by unfold maskRoiDisjoint; simp [List.all_eq_true]; exact h'.2)]
      | true =>
        have hr : r = false := by
          cases r
          · rfl
          · simpa using h'.1
        subst hr
        cases xs with
        | nil => simp
        | cons x xt =>
          simp [ih rs xt (by unfold maskRoiDisjoint; simp [List.all_eq_true]; exact h'.2)]

/-! ## Claims C5, C8, C10: `gclda_decode_roi` -/

/-- C5: whenever the ROI's affine differs from the model mask's affine in any
way, `gclda_decode_roi` fails with the spatial-alignment error, before any
numeric decoding computation; a mismatched ROI is never silently resampled
or reinterpreted. -/
theorem spec_C5 (wp : List ℚ → ℚ → List ℚ) (model : GCLDAModel) (roi : ImageQ)
    (tp : Option (List ℚ)) (pw : ℚ) (haff : roi.affine ≠ model.mask.affine) :
    gclda_decode_roi wp model roi tp pw = Except.error DecodeError.spatialAlignment := by
  unfold gclda_decode_roi
  rw [if_neg haff]

/-- A 4×4 identity affine (raveled). -/
def idAffine : List ℚ := [1,0,0,0, 0,1,0,0, 0,0,1,0, 0,0,0,1]

/-- A 4×4 affine differing from `idAffine` (2 mm voxels). -/
def otherAffine : List ℚ := [2,0,0,0, 0,2,0,0, 0,0,2,0, 0,0,0,1]

/-- The concrete 2-topic, 1-word model of the spec's GCLDA scenario. -/
def gcldaModelA : GCLDAModel :=
  { mask := { affine := idAffine, dataVals := [1] }
    n_topics := 2
    p_topic_g_voxel := [[1/5, 4/5]]
    p_word_g_topic := [[1, 1/2]]
    vocabulary := ["w"] }

/-- An ROI selecting the single in-mask voxel, in the model's frame. -/
def roiA : ImageQ := { affine := idAffine, dataVals := [1] }

/-- An ROI in a different coordinate frame. -/
def roiMismatched : ImageQ := { affine := otherAffine, dataVals := [1] }

theorem spec_C5_witness :
    roiMismatched.affine ≠ gcldaModelA.mask.affine ∧
    gclda_decode_roi (fun pr _ => pr) gcldaModelA roiMismatched none 1 =
      Except.error DecodeError.spatialAlignment :=
  ⟨by decide, spec_C5 (fun pr _ => pr) gcldaModelA roiMismatched none 1 (by decide)⟩

/-- C8: with no topic prior, the topic-weight vector is the elementwise sum
of the voxel-by-topic rows of the selected (in-mask, in-ROI) voxels, and
each term's weight is the dot product of its topic-by-word row with the
topic-weight vector. -/
theorem spec_C8 (wp : List ℚ → ℚ → List ℚ) (model : GCLDAModel) (roi : ImageQ)
    (pw : ℚ) (haff : roi.affine = model.mask.affine) :
    gclda_decode_roi wp model roi none pw =
      Except.ok
        (model.vocabulary.zip (model.p_word_g_topic.map (fun row => dot row
          (sumRows model.n_topics
            (boolMask2 (toBoolVec model.mask.dataVals) (toBoolVec roi.dataVals)
              model.p_topic_g_voxel)))),
         sumRows model.n_topics
           (boolMask2 (toBoolVec model.mask.dataVals) (toBoolVec roi.dataVals)
             model.p_topic_g_voxel)) := by
  unfold gclda_decode_roi
  rw [if_pos haff]
  simp [boolMask_boolMask]

/-- C8's concrete scenario: one selected voxel with topic row `[0.2, 0.8]`
and topic-by-word matrix `[[1.0], [0.5]]` yields topic weights `[0.2, 0.8]`
and term weight `0.6`. -/
theorem spec_C8_witness :
    roiA.affine = gcldaModelA.mask.affine ∧
    gclda_decode_roi (fun pr _ => pr) gcldaModelA roiA none 1 =
      Except.ok ([("w", 3/5)], [1/5, 4/5]) := by
  refine ⟨rfl, ?_⟩
  rw [spec_C8 (fun pr _ => pr) gcldaModelA roiA 1 rfl]
  exact congrArg Except.ok (by norm_num [gcldaModelA, roiA, toBoolVec, sumRows, vecAdd, dot, List.replicate])

/-- C10: ROI voxels outside the model's brain mask are silently ignored —
only voxels inside both the mask and the ROI contribute to the topic-weight
vector — and an ROI whose nonzero voxels all fall outside the mask yields an
all-zero topic-weight vector rather than an error. -/
theorem spec_C10 (wp : List ℚ → ℚ → List ℚ) (model : GCLDAModel) (roi : ImageQ)
    (pw : ℚ) (haff : roi.affine = model.mask.affine)
    (hdisj : maskRoiDisjoint (toBoolVec model.mask.dataVals) (toBoolVec roi.dataVals)) :
    gclda_decode_roi wp model roi none pw =
      Except.ok
        (model.vocabulary.zip (model.p_word_g_topic.map (fun row => dot row
          (List.replicate model.n_topics 0))),
         List.replicate model.n_topics 0) := by
  unfold gclda_decode_roi
  rw [if_pos haff]
  simp [boolMask_boolMask, boolMask2_of_disjoint _ _ _ hdisj, sumRows]

/-- A model with one in-mask voxel (position 0) and an ROI whose only voxel
(position 1) lies outside the mask. -/
def gcldaModelB : GCLDAModel :=
  { mask := { affine := idAffine, dataVals := [1, 0] }
    n_topics := 2
    p_topic_g_voxel := [[1/2, 1/2]]
    p_word_g_topic := [[1, 1]]
    vocabulary := ["w"] }

/-- ROI nonzero only at the out-of-mask voxel. -/
def roiB : ImageQ := { affine := idAffine, dataVals := [0, 1] }

theorem spec_C10_witness :
    roiB.affine = gcldaModelB.mask.affine ∧
    maskRoiDisjoint (toBoolVec gcldaModelB.mask.dataVals) (toBoolVec roiB.dataVals) ∧
    gclda_decode_roi (fun pr _ => pr) gcldaModelB roiB none 1 =
      Except.ok ([("w", 0)], [0, 0]) := by
  refine ⟨rfl, by decide, ?_⟩
  rw [spec_C10 (fun pr _ => pr) gcldaModelB roiB 1 rfl (by decide)]
  exact congrArg Except.ok (by norm_num [gcldaModelB, roiB, dot, List.replicate])

/-! ## Claim C7: the unselected-set computation -/

/-- C7: with `ids2` absent, the unselected set is the sorted set difference
of the coordinate-table study-id universe minus the selected ids — sorted,
disjoint from the selected ids, and jointly covering the universe; with
`ids2` supplied it is used verbatim. -/
theorem spec_C7 (inp : DiscreteInput) :
    (inp.ids2 = none →
      (unselectedIds inp).Sorted (· ≤ ·) ∧
      (∀ x, x ∈ unselectedIds inp ↔ x ∈ inp.coordinates ∧ x ∉ inp.ids) ∧
      (∀ x ∈ inp.ids, x ∉ unselectedIds inp) ∧
      (∀ x ∈ inp.coordinates, x ∈ inp.ids ∨ x ∈ unselectedIds inp)) ∧
    (∀ l, inp.ids2 = some l → unselectedIds inp = l) := by
  constructor
  · intro h
    have hu : unselectedIds inp = sortedSetDiff inp.coordinates inp.ids := by
      unfold unselectedIds
      rw [h]
    have hmem : ∀ x, x ∈ unselectedIds inp ↔ x ∈ inp.coordinates ∧ x ∉ inp.ids := by
      intro x
      rw [hu]
      unfold sortedSetDiff
      rw [List.mem_insertionSort, List.mem_dedup, List.mem_filter]
      simp
    refine ⟨?_, hmem, ?_, ?_⟩
    · rw [hu]
      exact List.sorted_insertionSort _ _
    · intro x hx hmem'
      exact ((hmem x).1 hmem').2 hx
    · intro x hx
      by_cases hxi : x ∈ inp.ids
      · exact Or.inl hxi
      · exact Or.inr ((hmem x).2 ⟨hx, hxi⟩)
  · intro l h
    unfold unselectedIds
    rw [h]

/-- Concrete input for the C7 witness: universe `{1, 2, 3}`, selection `[1]`. -/
def inpC7 : DiscreteInput :=
  { coordinates := [3, 1, 2, 1]
    annotations := []
    ids := [1]
    ids2 := none
    nFeatures := 0
    frequency_threshold := 0 }

theorem spec_C7_witness :
    inpC7.ids2 = none ∧ (unselectedIds inpC7).Sorted (· ≤ ·) ∧
      (2 ∈ unselectedIds inpC7 ↔ 2 ∈ inpC7.coordinates ∧ 2 ∉ inpC7.ids) :=
  ⟨rfl, ((spec_C7 inpC7).1 rfl).1, ((spec_C7 inpC7).1 rfl).2.1 2⟩

/-! ## Claims C2 and C9: `neurosynth_decode` priors and forward effect -/

/-- Concrete input: 3 one-focus studies, feature present only in the selected
study 1, so the empirical base rate is 1/3 while the signature default prior
is 1/2. -/
def inpC2 : DiscreteInput :=
  { coordinates := [1, 2, 3]
    annotations := [⟨1, [1]⟩, ⟨2, [0]⟩, ⟨3, [0]⟩]
    ids := [1]
    ids2 := none
    nFeatures := 1
    frequency_threshold := mkRat 1 1000 }

theorem inpC2_n_term : n_term inpC2 0 = 1 := by decide

theorem inpC2_n_noterm : n_noterm inpC2 0 = 2 := by decide

theorem inpC2_n_selected_term : n_selected_term inpC2 0 = 1 := by decide

theorem inpC2_n_selected_noterm : n_selected_noterm inpC2 0 = 0 := by decide

/-- C2 counterexample: calling `neurosynth_decode` without supplying a prior
uses the signature default `prior=0.5`, not the empirical base rate
`n_term/(n_term+n_noterm)`; at `inpC2` the base rate is 1/3 and the forward
effect sizes computed with the default and with the empirical prior differ. -/
theorem spec_C2_cex :
    ns_prior neurosynth_default_prior inpC2 0 = 1 / 2 ∧
    ns_p_term inpC2 0 = 1 / 3 ∧
    ns_prior neurosynth_default_prior inpC2 0 ≠ ns_p_term inpC2 0 ∧
    ns_prob_forward neurosynth_default_prior inpC2 0 = 1 / 2 ∧
    ns_prob_forward none inpC2 0 = 1 / 3 ∧
    ns_prob_forward neurosynth_default_prior inpC2 0 ≠ ns_prob_forward none inpC2 0 := by
  have hpt : ns_p_term inpC2 0 = 1 / 3 := by
    rw [ns_p_term, inpC2_n_term, inpC2_n_noterm]
    norm_num
  have hgt : ns_p_selected_g_term inpC2 0 = 1 := by
    rw [ns_p_selected_g_term, inpC2_n_term, inpC2_n_selected_term]
    norm_num
  have hgn : ns_p_selected_g_noterm inpC2 0 = 0 := by
    rw [ns_p_selected_g_noterm, inpC2_n_noterm, inpC2_n_selected_noterm]
    norm_num
  have hprd : ns_prior neurosynth_default_prior inpC2 0 = 1 / 2 := rfl
  have hprn : ns_prior none inpC2 0 = 1 / 3 := by
    rw [ns_prior, Option.getD, hpt]
  have hfd : ns_prob_forward neurosynth_default_prior inpC2 0 = 1 / 2 := by
    rw [ns_prob_forward, hprd, hgt, hgn]
    norm_num
  have hfn : ns_prob_forward none inpC2 0 = 1 / 3 := by
    rw [ns_prob_forward, hprn, hgt, hgn]
    norm_num
  refine ⟨hprd, hpt, ?_, hfd, hfn, ?_⟩
  · rw [hprd, hpt]
    norm_num
  · rw [hfd, hfn]
    norm_num

/-- C2 amended: when the caller passes `prior` explicitly as `None`, the
prior used for every feature equals the empirical term base rate
`n_term/(n_term+n_noterm)`; when no prior is supplied, the signature default
`0.5` is used instead. -/
theorem spec_C2_amended (inp : DiscreteInput) (j : ℕ) :
    ns_prior none inp j = ns_p_term inp j ∧
    ns_prior neurosynth_default_prior inp j = 1 / 2 :=
  ⟨rfl, rfl⟩

/-- C9: with `prior=None`, for every feature with positive `n_term` and
`n_noterm`, the forward effect size `probForward` equals
`n_selected / (n_selected + n_unselected)` — the same constant for every
feature, independent of the feature's counts. -/
theorem spec_C9 (inp : DiscreteInput) (j : ℕ)
    (h1 : 0 < n_term inp j) (h2 : 0 < n_noterm inp j) :
    ns_prob_forward none inp j =
      (n_selected inp : ℚ) / ((n_selected inp : ℚ) + (n_unselected inp : ℚ)) := by
  have ha : n_selected_term inp j ≤ n_selected inp := List.length_filter_le _ _
  have hb : n_unselected_term inp j ≤ n_unselected inp := List.length_filter_le _ _
  have hnatsum : n_term inp j + n_noterm inp j = n_selected inp + n_unselected inp := by
    unfold n_term n_noterm n_selected_noterm n_unselected_noterm
    omega
  have hnatA : n_selected_term inp j + n_selected_noterm inp j = n_selected inp := by
    unfold n_selected_noterm
    omega
  have hT : ((n_term inp j : ℚ)) ≠ 0 := by
    exact_mod_cast h1.ne'
  have hNT : ((n_noterm inp j : ℚ)) ≠ 0 := by
    exact_mod_cast h2.ne'
  have hsum : (n_term inp j : ℚ) + (n_noterm inp j : ℚ) =
      (n_selected inp : ℚ) + (n_unselected inp : ℚ) := by
    exact_mod_cast hnatsum
  have hA : (n_selected_term inp j : ℚ) + (n_selected_noterm inp j : ℚ) =
      (n_selected inp : ℚ) := by
    exact_mod_cast hnatA
  have hTN : (n_term inp j : ℚ) + (n_noterm inp j : ℚ) ≠ 0 := by
    have hpos : 0 < n_term inp j + n_noterm inp j := Nat.add_pos_left h1 _
    have : (0 : ℚ) < (n_term inp j : ℚ) + (n_noterm inp j : ℚ) := by
      exact_mod_cast hpos
    exact this.ne'
  rw [ns_prob_forward, ns_prior, Option.getD, ns_p_term, ns_p_selected_g_term,
    ns_p_selected_g_noterm, ← hsum, ← hA]
  field_simp
  ring

theorem spec_C9_witness :
    0 < n_term inpC2 0 ∧ 0 < n_noterm inpC2 0 ∧
    ns_prob_forward none inpC2 0 =
      (n_selected inpC2 : ℚ) / ((n_selected inpC2 : ℚ) + (n_unselected inpC2 : ℚ)) :=
  ⟨by decide, by decide, spec_C9 inpC2 0 (by decide) (by decide)⟩

/-! ## Claim C1: the raw forward p-value of `brainmap_decode` -/

/-- Two studies with one focus each; study 1 (selected) shows the feature. -/
def inpC1 : DiscreteInput :=
  { coordinates := [1, 2]
    annotations := [⟨1, [1]⟩, ⟨2, [0]⟩]
    ids := [1]
    ids2 := none
    nFeatures := 1
    frequency_threshold := mkRat 1 1000 }

theorem inpC1_n_selected_term : n_selected_term inpC1 0 = 1 := by decide

theorem inpC1_n_term_foci : n_term_foci inpC1 0 = 1 := by decide

theorem inpC1_p_selected : bm_p_selected inpC1 = NVal.fin (1 / 2) := by
  have e1 : n_selected inpC1 = 1 := rfl
  have e2 : n_foci_in_database inpC1 = 2 := rfl
  rw [bm_p_selected, e1, e2, nv, nv, NVal.fin_div _ _ (by norm_num)]
  norm_num

theorem binomCdfQ_one_one_half : binomCdfQ 1 1 (1 / 2 : ℚ) = 1 := by
  norm_num [binomCdfQ, List.range_succ]

theorem binomCdfQ_zero_one_half : binomCdfQ 0 1 (1 / 2 : ℚ) = 1 / 2 := by
  norm_num [binomCdfQ, List.range_succ]

/-- C1 counterexample: at `inpC1` the code's raw forward p-value is
`1 - binom.cdf(k=n_selected_term, ...) = 0`, while the claimed formula
`1 - CDF(n_selected_term - 1; n_term_foci, p_selected)` gives `1/2`. -/
theorem spec_C1_cex :
    n_selected_term inpC1 0 = 1 ∧ n_term_foci inpC1 0 = 1 ∧
    bm_p_selected inpC1 = NVal.fin (1 / 2) ∧
    bm_p_fi_raw inpC1 0 = NVal.fin 0 ∧
    NVal.fin (1 - binomCdfQ (n_selected_term inpC1 0 - 1) (n_term_foci inpC1 0)
      (1 / 2)) = NVal.fin (1 / 2) ∧
    bm_p_fi_raw inpC1 0 ≠
      NVal.fin (1 - binomCdfQ (n_selected_term inpC1 0 - 1) (n_term_foci inpC1 0)
        (1 / 2)) := by
  have hraw : bm_p_fi_raw inpC1 0 = NVal.fin 0 := by
    rw [bm_p_fi_raw, inpC1_n_selected_term, inpC1_n_term_foci, inpC1_p_selected,
      binomCdfN_fin, binomCdfQ_one_one_half]
    simp
  have hclaim : NVal.fin (1 - binomCdfQ (n_selected_term inpC1 0 - 1)
      (n_term_foci inpC1 0) (1 / 2)) = NVal.fin (1 / 2) := by
    rw [inpC1_n_selected_term, inpC1_n_term_foci]
    norm_num [binomCdfQ_zero_one_half]
  refine ⟨inpC1_n_selected_term, inpC1_n_term_foci, inpC1_p_selected, hraw, hclaim, ?_⟩
  rw [hraw, hclaim]
  intro h
  have : (0 : ℚ) = 1 / 2 := by injection h
  norm_num at this

/-- C1 amended: the raw forward p-value (before rare-feature suppression and
before correction) equals `1 - CDF_binomial(n_selected_term(f); n_term_foci(f),
p_selected)`, i.e., the probability of observing strictly more than
`n_selected_term(f)` successes. -/
theorem spec_C1_amended (inp : DiscreteInput) (j : ℕ)
    (h : n_foci_in_database inp ≠ 0) :
    bm_p_fi_raw inp j =
      NVal.fin (1 - binomCdfQ (n_selected_term inp j) (n_term_foci inp j)
        ((n_selected inp : ℚ) / (n_foci_in_database inp : ℚ))) := by
  have hps : bm_p_selected inp =
      NVal.fin ((n_selected inp : ℚ) / (n_foci_in_database inp : ℚ)) := by
    rw [bm_p_selected, nv, nv, NVal.fin_div]
    exact Nat.cast_ne_zero.mpr h
  rw [bm_p_fi_raw, hps, binomCdfN_fin]
  simp

theorem spec_C1_amended_witness :
    n_foci_in_database inpC1 ≠ 0 ∧
    bm_p_fi_raw inpC1 0 =
      NVal.fin (1 - binomCdfQ (n_selected_term inpC1 0) (n_term_foci inpC1 0)
        ((n_selected inpC1 : ℚ) / (n_foci_in_database inpC1 : ℚ))) :=
  ⟨by decide, spec_C1_amended inpC1 0 (by decide)⟩

/-! ## Claim C3: rare-feature suppression -/

/-- C3: for every feature with `n_selected_term < 5`, the pre-correction
forward and reverse p-values (the vectors handed to the correction step)
are exactly 1, and the corrected vectors are the correction function applied
to those suppressed vectors (suppression happens after the raw p-values and
before correction). -/
theorem spec_C3 (prims : StatPrimitives) (inp : DiscreteInput) (j : ℕ)
    (hj : j < inp.nFeatures) (hrare : n_selected_term inp j < 5) :
    (bm_p_fi_vec inp).getD j (NVal.fin 0) = NVal.fin 1 ∧
    (bm_p_ri_vec prims inp).getD j (NVal.fin 0) = NVal.fin 1 ∧
    bm_p_corr_fi prims inp true = prims.corr (bm_p_fi_vec inp) ∧
    bm_p_corr_ri prims inp true = prims.corr (bm_p_ri_vec prims inp) := by
  have hfi : (bm_p_fi_vec inp).getD j (NVal.fin 0) = bm_p_fi inp j := by
    rw [bm_p_fi_vec, List.getD_eq_getElem?_getD, List.getElem?_map,
      List.getElem?_range hj]
    rfl
  have hri : (bm_p_ri_vec prims inp).getD j (NVal.fin 0) = bm_p_ri prims inp j := by
    rw [bm_p_ri_vec, List.getD_eq_getElem?_getD, List.getElem?_map,
      List.getElem?_range hj]
    rfl
  refine ⟨?_, ?_, rfl, rfl⟩
  · rw [hfi, bm_p_fi, if_pos hrare]
  · rw [hri, bm_p_ri, if_pos hrare]

/-- Trivial instantiation of the external statistical primitives. -/
def trivialPrims : StatPrimitives :=
  { two_way := fun _ _ _ _ => NVal.fin 0
    chdtrc := id
    p_to_z := id
    corr := id }

theorem spec_C3_witness :
    0 < inpC1.nFeatures ∧ n_selected_term inpC1 0 < 5 ∧
    (bm_p_fi_vec inpC1).getD 0 (NVal.fin 0) = NVal.fin 1 ∧
    (bm_p_ri_vec trivialPrims inpC1).getD 0 (NVal.fin 0) = NVal.fin 1 :=
  ⟨by decide, by decide,
    (spec_C3 trivialPrims inpC1 0 (by decide) (by decide)).1,
    (spec_C3 trivialPrims inpC1 0 (by decide) (by decide)).2.1⟩

/-! ## Further `NVal` lemmas: special-value propagation and nonnegativity -/

@[simp] theorem NVal.nan_add (x : NVal) : NVal.nan.add x = NVal.nan := by
  cases x <;> rfl

@[simp] theorem NVal.add_nan (x : NVal) : x.add NVal.nan = NVal.nan := by
  cases x <;> rfl

@[simp] theorem NVal.nan_mul (x : NVal) : NVal.nan.mul x = NVal.nan := by
  cases x <;> rfl

@[simp] theorem NVal.mul_nan (x : NVal) : x.mul NVal.nan = NVal.nan := by
  cases x <;> rfl

@[simp] theorem NVal.nan_div (x : NVal) : NVal.nan.div x = NVal.nan := by
  cases x <;> rfl

@[simp] theorem NVal.div_nan (x : NVal) : x.div NVal.nan = NVal.nan := by
  cases x <;> rfl

@[simp] theorem NVal.zero_div_zero : (NVal.fin 0).div (NVal.fin 0) = NVal.nan := by
  simp [NVal.div]

/-- All values reachable by the BrainMap reverse-effect computation:
nonnegative finite, `+inf`, or `nan` — never negative, never `-inf`. -/
def NVal.NN : NVal → Prop
  | fin q => 0 ≤ q
  | pinf => True
  | ninf => False
  | nan => True

theorem NVal.NN_nv (n : ℕ) : (nv n).NN := by
  simp [nv, NVal.NN]

theorem NVal.NN_signIf {a : ℚ} (ha : 0 ≤ a) :
    NVal.NN (if 0 < a then NVal.pinf else if a < 0 then NVal.ninf else NVal.nan) := by
  split_ifs with h1 h2
  · trivial
  · exact absurd h2 (not_lt.mpr ha)
  · trivial

theorem NVal.NN_add {x y : NVal} (hx : x.NN) (hy : y.NN) : (x.add y).NN := by
  cases x with
  | fin a =>
    cases y with
    | fin b => exact add_nonneg hx hy
    | pinf => trivial
    | ninf => exact hy.elim
    | nan => trivial
  | pinf =>
    cases y with
    | fin b => trivial
    | pinf => trivial
    | ninf => exact hy.elim
    | nan => trivial
  | ninf => exact hx.elim
  | nan => cases y <;> trivial

theorem NVal.NN_mul {x y : NVal} (hx : x.NN) (hy : y.NN) : (x.mul y).NN := by
  cases x with
  | fin a =>
    cases y with
    | fin b => exact mul_nonneg hx hy
    | pinf => exact NVal.NN_signIf hx
    | ninf => exact hy.elim
    | nan => trivial
  | pinf =>
    cases y with
    | fin b => exact NVal.NN_signIf hy
    | pinf => trivial
    | ninf => exact hy.elim
    | nan => trivial
  | ninf => exact hx.elim
  | nan => cases y <;> trivial

theorem NVal.NN_div {x y : NVal} (hx : x.NN) (hy : y.NN) : (x.div y).NN := by
  cases x with
  | fin a =>
    cases y with
    | fin b =>
      by_cases hb : b = 0
      · show NVal.NN (if b = 0 then _ else _)
        rw [if_pos hb]
        exact NVal.NN_signIf hx
      · show NVal.NN (if b = 0 then _ else _)
        rw [if_neg hb]
        exact div_nonneg hx hy
    | pinf => exact le_refl 0
    | ninf => exact le_refl 0
    | nan => trivial
  | pinf =>
    cases y with
    | fin b =>
      have hy' : 0 ≤ b := hy
      show NVal.NN (if 0 ≤ b then NVal.pinf else NVal.ninf)
      rw [if_pos hy']
      trivial
    | pinf => trivial
    | ninf => exact hy.elim
    | nan => trivial
  | ninf => exact hx.elim
  | nan => cases y <;> trivial

theorem NVal.add_not_finite_left {x y : NVal} (hx : x.NN) (hy : y.NN)
    (h : x.isFinite = false) : (x.add y).isFinite = false := by
  cases x <;> cases y <;> simp_all [NVal.NN, NVal.add, NVal.isFinite]

theorem NVal.add_not_finite_right {x y : NVal} (hx : x.NN) (hy : y.NN)
    (h : y.isFinite = false) : (x.add y).isFinite = false := by
  cases x <;> cases y <;> simp_all [NVal.NN, NVal.add, NVal.isFinite]

theorem NVal.mul_not_finite_left {x y : NVal} (hx : x.NN) (hy : y.NN)
    (h : x.isFinite = false) : (x.mul y).isFinite = false := by
  cases x <;> cases y <;>
    simp_all [NVal.NN, NVal.mul, NVal.isFinite] <;> split_ifs <;>
      simp_all [NVal.isFinite]

theorem NVal.div_not_finite_left {x y : NVal} (hx : x.NN) (hy : y.NN)
    (h : x.isFinite = false) : (x.div y).isFinite = false := by
  cases x <;> cases y <;>
    simp_all [NVal.NN, NVal.div, NVal.isFinite] <;> split_ifs <;>
      simp_all [NVal.isFinite]

theorem NVal.div_fin_zero_not_finite (a : ℚ) :
    ((NVal.fin a).div (NVal.fin 0)).isFinite = false := by
  simp only [NVal.div, if_pos rfl]
  split_ifs <;> simp [NVal.isFinite]

/-- `x / S` with a nonnegative-type non-finite denominator is `0` or `nan`:
it never carries information. -/
theorem NVal.div_not_finite_denom {x S : NVal} (hx : x.NN) (hS : S.NN)
    (h : S.isFinite = false) : x.div S = NVal.fin 0 ∨ x.div S = NVal.nan := by
  cases x <;> cases S <;> simp_all [NVal.NN, NVal.div, NVal.isFinite]

/-- A left fold of `NVal.add` over nonnegative-type values, one of which is
non-finite (or whose accumulator is non-finite), is non-finite. -/
theorem foldl_add_not_finite :
    ∀ (l : List NVal) (acc : NVal), acc.NN → (∀ x ∈ l, x.NN) →
      (acc.isFinite = false ∨ ∃ x ∈ l, x.isFinite = false) →
      (l.foldl NVal.add acc).isFinite = false := by
  intro l
  induction l with
  | nil =>
    intro acc _ _ h
    rcases h with h | ⟨x, hx, _⟩
    · simpa using h
    · simp at hx
  | cons y ys ih =>
    intro acc haccNN hNN h
    have hyNN : y.NN := hNN y (List.mem_cons_self y ys)
    have hysNN : ∀ x ∈ ys, x.NN := fun x hx => hNN x (List.mem_cons_of_mem y hx)
    have haccNN' : (acc.add y).NN := NVal.NN_add haccNN hyNN
    rcases h with h | ⟨x, hx, hxf⟩
    · exact ih (acc.add y) haccNN' hysNN
        (Or.inl (NVal.add_not_finite_left haccNN hyNN h))
    · rcases List.mem_cons.mp hx with rfl | hx'
      · exact ih (acc.add x) haccNN' hysNN
          (Or.inl (NVal.add_not_finite_right haccNN hyNN hxf))
      · exact ih (acc.add y) haccNN' hysNN (Or.inr ⟨x, hx', hxf⟩)

theorem nsum_not_finite (l : List NVal) (hNN : ∀ x ∈ l, x.NN)
    (h : ∃ x ∈ l, x.isFinite = false) : (nsum l).isFinite = false :=
  foldl_add_not_finite l (NVal.fin 0) (by simp [NVal.NN]) hNN (Or.inr h)

theorem foldl_add_NN :
    ∀ (l : List NVal) (acc : NVal), acc.NN → (∀ x ∈ l, x.NN) →
      (l.foldl NVal.add acc).NN := by
  intro l
  induction l with
  | nil => intro acc h _; exact h
  | cons y ys ih =>
    intro acc haccNN hNN
    exact ih (acc.add y) (NVal.NN_add haccNN (hNN y (List.mem_cons_self y ys)))
      (fun x hx => hNN x (List.mem_cons_of_mem y hx))

theorem nsum_NN (l : List NVal) (h : ∀ x ∈ l, x.NN) : (nsum l).NN :=
  foldl_add_NN l (NVal.fin 0) (le_refl 0) h

/-! ## NN and degeneracy facts for the BrainMap reverse-effect pipeline -/

theorem bm_p_term_NN (inp : DiscreteInput) (j : ℕ) : (bm_p_term inp j).NN :=
  NVal.NN_div (NVal.NN_nv _) (NVal.NN_nv _)

theorem bm_p_selected_NN (inp : DiscreteInput) : (bm_p_selected inp).NN :=
  NVal.NN_div (NVal.NN_nv _) (NVal.NN_nv _)

theorem bm_p_selected_g_term_NN (inp : DiscreteInput) (j : ℕ) :
    (bm_p_selected_g_term inp j).NN :=
  NVal.NN_div (NVal.NN_nv _) (NVal.NN_nv _)

theorem bm_prob_reverse_raw_NN (inp : DiscreteInput) (j : ℕ) :
    (bm_prob_reverse_raw inp j).NN :=
  NVal.NN_div (NVal.NN_mul (bm_p_selected_g_term_NN inp j) (bm_p_term_NN inp j))
    (bm_p_selected_NN inp)

theorem bm_reverse_sum_NN (inp : DiscreteInput) : (bm_reverse_sum inp).NN := by
  apply nsum_NN
  intro x hx
  obtain ⟨k, _, rfl⟩ := List.mem_map.mp hx
  exact bm_prob_reverse_raw_NN inp k

theorem bm_p_selected_g_term_not_finite (inp : DiscreteInput) (j : ℕ)
    (h : n_term_foci inp j = 0) : (bm_p_selected_g_term inp j).isFinite = false := by
  rw [bm_p_selected_g_term, h]
  have h0 : nv 0 = NVal.fin 0 := by simp [nv]
  rw [h0, nv]
  exact NVal.div_fin_zero_not_finite _

theorem bm_prob_reverse_raw_not_finite (inp : DiscreteInput) (j : ℕ)
    (h : n_term_foci inp j = 0) : (bm_prob_reverse_raw inp j).isFinite = false := by
  rw [bm_prob_reverse_raw]
  exact NVal.div_not_finite_left
    (NVal.NN_mul (bm_p_selected_g_term_NN inp j) (bm_p_term_NN inp j))
    (bm_p_selected_NN inp)
    (NVal.mul_not_finite_left (bm_p_selected_g_term_NN inp j) (bm_p_term_NN inp j)
      (bm_p_selected_g_term_not_finite inp j h))

theorem bm_reverse_sum_not_finite (inp : DiscreteInput) (j : ℕ)
    (hj : j < inp.nFeatures) (h : n_term_foci inp j = 0) :
    (bm_reverse_sum inp).isFinite = false := by
  apply nsum_not_finite
  · intro x hx
    obtain ⟨k, _, rfl⟩ := List.mem_map.mp hx
    exact bm_prob_reverse_raw_NN inp k
  · exact ⟨bm_prob_reverse_raw inp j,
      List.mem_map_of_mem _ (List.mem_range.mpr hj),
      bm_prob_reverse_raw_not_finite inp j h⟩

/-! ## Claim C6: a feature with `n_term_foci = 0` -/

/-- Two features over two one-focus studies; feature 0 appears in no study
(`n_term_foci = 0`), feature 1 appears in the selected study 1. -/
def inpC6a : DiscreteInput :=
  { coordinates := [1, 2]
    annotations := [⟨1, [0, 1]⟩, ⟨2, [0, 0]⟩]
    ids := [1]
    ids2 := none
    nFeatures := 2
    frequency_threshold := mkRat 1 1000 }

theorem inpC6a_p_selected : bm_p_selected inpC6a = NVal.fin (1 / 2) := by
  have e1 : n_selected inpC6a = 1 := rfl
  have e2 : n_foci_in_database inpC6a = 2 := rfl
  rw [bm_p_selected, e1, e2, nv, nv, NVal.fin_div _ _ (by norm_num)]
  norm_num

theorem inpC6a_raw0 : bm_prob_reverse_raw inpC6a 0 = NVal.nan := by
  have e1 : n_selected_term inpC6a 0 = 0 := by decide
  have e2 : n_term_foci inpC6a 0 = 0 := by decide
  rw [bm_prob_reverse_raw, bm_p_selected_g_term, e1, e2]
  have h0 : nv 0 = NVal.fin 0 := by simp [nv]
  rw [h0]
  simp

theorem inpC6a_raw1 : bm_prob_reverse_raw inpC6a 1 = NVal.fin 2 := by
  have e1 : n_selected_term inpC6a 1 = 1 := by decide
  have e2 : n_term_foci inpC6a 1 = 1 := by decide
  have e3 : n_term inpC6a 1 = 1 := by decide
  have e4 : n_exps_across_terms inpC6a = 1 := by decide
  rw [bm_prob_reverse_raw, bm_p_selected_g_term, bm_p_term, inpC6a_p_selected,
    e1, e2, e3, e4]
  norm_num [nv, NVal.fin_div]

theorem inpC6a_reverse_sum : bm_reverse_sum inpC6a = NVal.nan := by
  have : (List.range inpC6a.nFeatures).map (bm_prob_reverse_raw inpC6a) =
      [bm_prob_reverse_raw inpC6a 0, bm_prob_reverse_raw inpC6a 1] := by
    have h2 : inpC6a.nFeatures = 2 := rfl
    rw [h2]
    rfl
  rw [bm_reverse_sum, this, inpC6a_raw0, inpC6a_raw1]
  simp [nsum]

theorem inpC1_raw0 : bm_prob_reverse_raw inpC1 0 = NVal.fin 2 := by
  have e1 : n_selected_term inpC1 0 = 1 := by decide
  have e2 : n_term_foci inpC1 0 = 1 := by decide
  have e3 : n_term inpC1 0 = 1 := by decide
  have e4 : n_exps_across_terms inpC1 = 1 := by decide
  rw [bm_prob_reverse_raw, bm_p_selected_g_term, bm_p_term, inpC1_p_selected,
    e1, e2, e3, e4]
  norm_num [nv, NVal.fin_div]

theorem inpC1_reverse_sum : bm_reverse_sum inpC1 = NVal.fin 2 := by
  have : (List.range inpC1.nFeatures).map (bm_prob_reverse_raw inpC1) =
      [bm_prob_reverse_raw inpC1 0] := by
    have h1 : inpC1.nFeatures = 1 := rfl
    rw [h1]
    rfl
  rw [bm_reverse_sum, this, inpC1_raw0]
  simp [nsum]

/-- C6 counterexample: `inpC6a` is `inpC1` with a degenerate feature
(`n_term_foci = 0`) added in front.  The degenerate feature makes the shared
renormalization denominator `nan`, so the other feature's returned
`probReverse` flips from `1` to `nan`: the degenerate feature does affect
every other feature's values. -/
theorem spec_C6_cex :
    n_term_foci inpC6a 0 = 0 ∧
    bm_prob_reverse inpC6a 1 = NVal.nan ∧
    bm_prob_reverse inpC1 0 = NVal.fin 1 ∧
    bm_prob_reverse inpC6a 1 ≠ bm_prob_reverse inpC1 0 := by
  have h1 : bm_prob_reverse inpC6a 1 = NVal.nan := by
    rw [bm_prob_reverse, inpC6a_reverse_sum]
    simp
  have h2 : bm_prob_reverse inpC1 0 = NVal.fin 1 := by
    rw [bm_prob_reverse, inpC1_reverse_sum, inpC1_raw0,
      NVal.fin_div _ _ (by norm_num)]
    norm_num
  refine ⟨by decide, h1, h2, ?_⟩
  rw [h1, h2]
  intro h
  exact NVal.noConfusion h

/-- C6 amended: with `n_term_foci(f) = 0` the forward probability ratio for
`f` is non-finite rather than an exception, and the call still returns a
complete (full-length) table; but the other features are not unaffected:
the global renormalization denominator becomes non-finite, so every
feature's returned `probReverse` degenerates to `0` or `nan`. -/
theorem spec_C6_amended (prims : StatPrimitives) (inp : DiscreteInput)
    (useCorrection : Bool) (j : ℕ) (hj : j < inp.nFeatures)
    (h0 : n_term_foci inp j = 0) :
    (bm_p_selected_g_term inp j).isFinite = false ∧
    (brainmap_decode prims inp useCorrection).length = inp.nFeatures ∧
    (bm_reverse_sum inp).isFinite = false ∧
    (∀ k, bm_prob_reverse inp k = NVal.fin 0 ∨ bm_prob_reverse inp k = NVal.nan) := by
  refine ⟨bm_p_selected_g_term_not_finite inp j h0, by simp [brainmap_decode],
    bm_reverse_sum_not_finite inp j hj h0, ?_⟩
  intro k
  exact NVal.div_not_finite_denom (bm_prob_reverse_raw_NN inp k)
    (bm_reverse_sum_NN inp) (bm_reverse_sum_not_finite inp j hj h0)

theorem spec_C6_amended_witness :
    0 < inpC6a.nFeatures ∧ n_term_foci inpC6a 0 = 0 ∧
    (bm_p_selected_g_term inpC6a 0).isFinite = false ∧
    (brainmap_decode trivialPrims inpC6a false).length = inpC6a.nFeatures :=
  ⟨by decide, by decide,
    (spec_C6_amended trivialPrims inpC6a false 0 (by decide) (by decide)).1,
    (spec_C6_amended trivialPrims inpC6a false 0 (by decide) (by decide)).2.1⟩

/-! ## Claim C4: global renormalization of the BrainMap reverse effects -/

/-- Exact-rational shadow of `bm_prob_reverse_raw`, valid whenever every
denominator of the un-normalized reverse effect is nonzero. -/
def bm_prob_reverse_rawQ (inp : DiscreteInput) (j : ℕ) : ℚ :=
  (((n_selected_term inp j : ℚ) / (n_term_foci inp j : ℚ)) *
    ((n_term inp j : ℚ) / (n_exps_across_terms inp : ℚ))) /
    ((n_selected inp : ℚ) / (n_foci_in_database inp : ℚ))

theorem bm_prob_reverse_raw_eq (inp : DiscreteInput) (j : ℕ)
    (hb : n_term_foci inp j ≠ 0) (hd : n_exps_across_terms inp ≠ 0)
    (hn : n_foci_in_database inp ≠ 0) (hs : n_selected inp ≠ 0) :
    bm_prob_reverse_raw inp j = NVal.fin (bm_prob_reverse_rawQ inp j) := by
  have hb' : ((n_term_foci inp j : ℚ)) ≠ 0 := Nat.cast_ne_zero.mpr hb
  have hd' : ((n_exps_across_terms inp : ℚ)) ≠ 0 := Nat.cast_ne_zero.mpr hd
  have hn' : ((n_foci_in_database inp : ℚ)) ≠ 0 := Nat.cast_ne_zero.mpr hn
  have hps : ((n_selected inp : ℚ) / (n_foci_in_database inp : ℚ)) ≠ 0 :=
    div_ne_zero (Nat.cast_ne_zero.mpr hs) hn'
  rw [bm_prob_reverse_raw, bm_p_selected_g_term, bm_p_term, bm_p_selected,
    nv, nv, nv, nv, nv, nv, NVal.fin_div _ _ hb', NVal.fin_div _ _ hd',
    NVal.fin_div _ _ hn', NVal.fin_mul, NVal.fin_div _ _ hps,
    bm_prob_reverse_rawQ]

theorem list_sum_div (l : List ℚ) (T : ℚ) :
    (l.map (fun x => x / T)).sum = l.sum / T := by
  induction l with
  | nil => simp
  | cons x xs ih => simp [ih, add_div]

/-- The sum of the returned (normalized) reverse effect sizes. -/
def bm_sum_prob_reverse (inp : DiscreteInput) : NVal :=
  nsum ((List.range inp.nFeatures).map (bm_prob_reverse inp))

/-- C4: whenever no feature has a zero denominator in its reverse effect —
`n_term_foci` positive for every feature, `n_exps_across_terms`,
`n_foci_in_database` and `n_selected` nonzero, and a nonzero (finite)
normalization denominator — the returned reverse effect sizes sum to
exactly 1 across the feature set. -/
theorem spec_C4 (inp : DiscreteInput)
    (hfoci : ∀ j < inp.nFeatures, n_term_foci inp j ≠ 0)
    (hexps : n_exps_across_terms inp ≠ 0)
    (hdb : n_foci_in_database inp ≠ 0)
    (hsel : n_selected inp ≠ 0)
    (hS : ∃ s : ℚ, bm_reverse_sum inp = NVal.fin s ∧ s ≠ 0) :
    bm_sum_prob_reverse inp = NVal.fin 1 := by
  obtain ⟨s, hSeq, hs0⟩ := hS
  have hmap : (List.range inp.nFeatures).map (bm_prob_reverse_raw inp) =
      ((List.range inp.nFeatures).map (bm_prob_reverse_rawQ inp)).map NVal.fin := by
    rw [List.map_map]
    refine List.map_congr_left ?_
    intro k hk
    exact bm_prob_reverse_raw_eq inp k (hfoci k (List.mem_range.mp hk)) hexps hdb hsel
  have hsum : bm_reverse_sum inp =
      NVal.fin (((List.range inp.nFeatures).map (bm_prob_reverse_rawQ inp)).sum) := by
    rw [bm_reverse_sum, hmap, nsum_map_fin]
  have hT : ((List.range inp.nFeatures).map (bm_prob_reverse_rawQ inp)).sum = s := by
    have h := hSeq
    rw [hsum] at h
    injection h
  have hpr : (List.range inp.nFeatures).map (bm_prob_reverse inp) =
      ((List.range inp.nFeatures).map
        (fun k => bm_prob_reverse_rawQ inp k / s)).map NVal.fin := by
    rw [List.map_map]
    refine List.map_congr_left ?_
    intro k hk
    show bm_prob_reverse inp k = NVal.fin (bm_prob_reverse_rawQ inp k / s)
    rw [bm_prob_reverse, hSeq,
      bm_prob_reverse_raw_eq inp k (hfoci k (List.mem_range.mp hk)) hexps hdb hsel,
      NVal.fin_div _ _ hs0]
  have hcomp : (List.range inp.nFeatures).map
      (fun k => bm_prob_reverse_rawQ inp k / s) =
      ((List.range inp.nFeatures).map (bm_prob_reverse_rawQ inp)).map
        (fun x => x / s) := by
    rw [List.map_map]
    rfl
  rw [bm_sum_prob_reverse, hpr, nsum_map_fin, hcomp, list_sum_div, hT, div_self hs0]

/-- Two features, two one-focus studies, every reverse-effect denominator
nonzero. -/
def inpC4 : DiscreteInput :=
  { coordinates := [1, 2]
    annotations := [⟨1, [1, 1]⟩, ⟨2, [1, 0]⟩]
    ids := [1]
    ids2 := none
    nFeatures := 2
    frequency_threshold := mkRat 1 1000 }

theorem inpC4_raw0 : bm_prob_reverse_raw inpC4 0 = NVal.fin (2 / 3) := by
  rw [bm_prob_reverse_raw_eq inpC4 0 (by decide) (by decide) (by decide) (by decide)]
  have e1 : n_selected_term inpC4 0 = 1 := by decide
  have e2 : n_term_foci inpC4 0 = 2 := by decide
  have e3 : n_term inpC4 0 = 2 := by decide
  have e4 : n_exps_across_terms inpC4 = 3 := by decide
  have e5 : n_selected inpC4 = 1 := by decide
  have e6 : n_foci_in_database inpC4 = 2 := by decide
  rw [bm_prob_reverse_rawQ, e1, e2, e3, e4, e5, e6]
  norm_num

theorem inpC4_raw1 : bm_prob_reverse_raw inpC4 1 = NVal.fin (2 / 3) := by
  rw [bm_prob_reverse_raw_eq inpC4 1 (by decide) (by decide) (by decide) (by decide)]
  have e1 : n_selected_term inpC4 1 = 1 := by decide
  have e2 : n_term_foci inpC4 1 = 1 := by decide
  have e3 : n_term inpC4 1 = 1 := by decide
  have e4 : n_exps_across_terms inpC4 = 3 := by decide
  have e5 : n_selected inpC4 = 1 := by decide
  have e6 : n_foci_in_database inpC4 = 2 := by decide
  rw [bm_prob_reverse_rawQ, e1, e2, e3, e4, e5, e6]
  norm_num

theorem inpC4_reverse_sum : bm_reverse_sum inpC4 = NVal.fin (4 / 3) := by
  have hlist : (List.range inpC4.nFeatures).map (bm_prob_reverse_raw inpC4) =
      [bm_prob_reverse_raw inpC4 0, bm_prob_reverse_raw inpC4 1] := by
    have h2 : inpC4.nFeatures = 2 := rfl
    rw [h2]
    rfl
  rw [bm_reverse_sum, hlist, inpC4_raw0, inpC4_raw1]
  simp [nsum]
  norm_num

theorem spec_C4_witness :
    (∀ j < inpC4.nFeatures, n_term_foci inpC4 j ≠ 0) ∧
    n_exps_across_terms inpC4 ≠ 0 ∧ n_foci_in_database inpC4 ≠ 0 ∧
    n_selected inpC4 ≠ 0 ∧
    (∃ s : ℚ, bm_reverse_sum inpC4 = NVal.fin s ∧ s ≠ 0) ∧
    bm_sum_prob_reverse inpC4 = NVal.fin 1 :=
  ⟨by decide, by decide, by decide, by decide,
    ⟨4 / 3, inpC4_reverse_sum, by norm_num⟩,
    spec_C4 inpC4 (by decide) (by decide) (by decide) (by decide)
      ⟨4 / 3, inpC4_reverse_sum, by norm_num⟩⟩
